import Mathlib

/-!
# Verification of the adjacency-matrix / edge-list conversion core

A shallow embedding of `networkx/convert_matrix.py`: the conversions between
an attribute-bearing (multi)graph and dense / structured / sparse matrix
encodings.  Edge weights are modelled as integers (`Int`); the floating-point
"nan" marker used by the source to distinguish unset cells from real zero
weights is modelled by `Option Int` (`none` = nan/unset), which is exact for
non-nan data.  Matrices are lists of rows.  Fallible operations return
`Except NXError`.
-/

namespace ConvertMatrix

/-- An edge attribute mapping (attribute name to numeric value), modelling the
Python per-edge `attrs` dict restricted to numeric attributes. -/
abbrev Attrs := List (String × Int)

/-- `attrs.get(key, d)` of the source: value of attribute `key`, or `d` when
the edge lacks that attribute. -/
def attrGet (attrs : Attrs) (k : String) (d : Int) : Int :=
  (attrs.lookup k).getD d

/-- The graph interface consumed by the converters: node list (in iteration
order), edge list `(u, v, attrs)` (in iteration order), plus the directedness
and multiplicity flags `is_directed()` / `is_multigraph()`. -/
structure Graph where
  nodes : List Nat
  edges : List (Nat × Nat × Attrs)
  directed : Bool
  multigraph : Bool
deriving DecidableEq

/-- The error outcomes of the conversion functions.  `ambiguousOrdering`,
`unknownReducer`, `emptyGraph`, `notSquare` and `unknownFormat` are the
`nx.NetworkXError` / `ValueError` raises visible in the source;
`notImplementedForMultigraph` is the `@not_implemented_for('multigraph')`
decorator raise on `to_numpy_recarray`; `missingField` is the `KeyError`
escaping from `attrs[n]`; `valueUnpack` is the `ValueError` raised by
unpacking `zip(*gen)` when the generator is empty. -/
inductive NXError where
  | ambiguousOrdering
  | unknownReducer
  | emptyGraph
  | unknownFormat (fmt : String)
  | notSquare
  | notImplementedForMultigraph
  | missingField (name : String)
  | valueUnpack
deriving DecidableEq

/-- The `multigraph_weight` argument of `to_numpy_matrix`.  The source keys a
dict on the Python builtins `sum`, `min`, `max`; any other argument falls to
the `except` branch.  `other` stands for an arbitrary non-supported value. -/
inductive Reducer where
  | rsum
  | rmin
  | rmax
  | other (name : String)
deriving DecidableEq

/-- The dict lookup `{sum: np.nansum, min: np.nanmin, max: np.nanmax}[r]`:
the binary combining operation, or `none` (the `except` / `ValueError` case)
for anything else. -/
def reducerOp : Reducer → Option (Int → Int → Int)
  | .rsum => some (· + ·)
  | .rmin => some min
  | .rmax => some max
  | .other _ => none

/-- `op([e_weight, M[i,j]])` with a nan-aware `op` (`np.nansum` / `np.nanmin`
/ `np.nanmax`): a nan (`none`) cell is skipped, so the result is `w` when the
cell is unset and `op w c` when it holds `c`. -/
def nanOp (op : Int → Int → Int) (w : Int) (cur : Option Int) : Int :=
  match cur with
  | none => w
  | some c => op w c

/-- A dense matrix during accumulation: each cell is `none` (the initial nan)
or a real value. -/
abbrev NanMatrix := List (List (Option Int))

/-- `M[i,j] = x`: functional update of a list-of-rows matrix (a no-op out of
range, which never happens on in-range indices). -/
def mset (M : List (List α)) (i j : Nat) (x : α) : List (List α) :=
  M.set i ((M.getD i []).set j x)

/-- Read cell `(i, j)` of an accumulating matrix (`none` out of range, like a
nan). -/
def ncell (M : NanMatrix) (i j : Nat) : Option Int :=
  (M.getD i []).getD j none

/-- Read cell `(i, j)` of a finished integer matrix. -/
def icell (M : List (List Int)) (i j : Nat) : Int :=
  (M.getD i []).getD j 0

/-- `np.zeros((n,n)) + np.nan`: the all-nan n-by-n matrix. -/
def initNan (n : Nat) : NanMatrix :=
  List.replicate n (List.replicate n none)

/-- `M[np.isnan(M)] = nonedge`: replace every remaining unset cell by the
nonedge sentinel. -/
def sweep (nonedge : Int) (M : NanMatrix) : List (List Int) :=
  M.map (fun row => row.map (fun c => c.getD nonedge))

/-- `index[u]` for `index = dict(zip(nodelist, range(len(nodelist))))`: the
position of `u` in the ordering (first occurrence; the orderings in use are
duplicate-free). -/
def nlIdx (nl : List Nat) (u : Nat) : Nat :=
  nl.findIdx (· == u)

/-- One iteration of the multigraph loop of `to_numpy_matrix`: skip the edge
unless both endpoints are in the node set, else combine into `M[i,j]` with
the nan-aware reducer and, when undirected, mirror `M[j,i] = M[i,j]`. -/
def applyEdgeMulti (op : Int → Int → Int) (undirected : Bool) (nl : List Nat)
    (wk : String) (M : NanMatrix) (e : Nat × Nat × Attrs) : NanMatrix :=
  if nl.contains e.1 && nl.contains e.2.1 then
    let i := nlIdx nl e.1
    let j := nlIdx nl e.2.1
    let x := nanOp op (attrGet e.2.2 wk 1) (ncell M i j)
    let M1 := mset M i j (some x)
    if undirected then mset M1 j i (some x) else M1
  else M

/-- The entries produced by `G.adjacency_iter()` for a simple graph: for a
DiGraph each edge once as stored; for an undirected Graph each non-loop edge
in both orientations and each self-loop once. -/
def adjEntries (g : Graph) : List (Nat × Nat × Attrs) :=
  if g.directed then g.edges
  else g.edges ++
    (g.edges.filter (fun e => !(e.1 == e.2.1))).map (fun e => (e.2.1, e.1, e.2.2))

/-- One iteration of the simple-graph loop of `to_numpy_matrix`: direct
assignment `M[index[u], index[v]] = d.get(weight, 1)`, the `KeyError` from a
missing index being passed over. -/
def applyEdgeSimple (nl : List Nat) (wk : String) (M : NanMatrix)
    (e : Nat × Nat × Attrs) : NanMatrix :=
  if nl.contains e.1 && nl.contains e.2.1 then
    mset M (nlIdx nl e.1) (nlIdx nl e.2.1) (some (attrGet e.2.2 wk 1))
  else M

/-- `to_numpy_matrix(G, nodelist, dtype, order, multigraph_weight, weight,
nonedge)`: the dense encode.  The `dtype`/`order` memory-layout arguments of
the source have no observable effect on the cell values and are omitted. -/
def to_numpy_matrix (g : Graph) (nodelist : Option (List Nat)) (r : Reducer)
    (wk : String) (nonedge : Int) : Except NXError (List (List Int)) :=
  let nl := nodelist.getD g.nodes
  if nl.length ≠ nl.dedup.length then .error .ambiguousOrdering
  else if g.multigraph then
    match reducerOp r with
    | none => .error .unknownReducer
    | some op =>
        .ok (sweep nonedge
          (g.edges.foldl (applyEdgeMulti op (!g.directed) nl wk) (initNan nl.length)))
  else
    .ok (sweep nonedge
      ((adjEntries g).foldl (applyEdgeSimple nl wk) (initNan nl.length)))

/-- The subgraph of `g` induced by the nodes listed in `nl`: only edges with
both endpoints in `nl` remain. -/
def inducedSubgraph (g : Graph) (nl : List Nat) : Graph :=
  { g with
    nodes := g.nodes.filter (fun x => nl.contains x)
    edges := g.edges.filter (fun e => nl.contains e.1 && nl.contains e.2.1) }

/-- A decoded graph: nodes `0..n-1` and weighted edges as added by
`add_edges_from` (for a multigraph target the edge list is exactly the
multiset of added triples). -/
structure WGraph where
  nodes : List Nat
  edges : List (Nat × Nat × Int)
deriving DecidableEq

/-- `A[i, j]` of a list-of-rows integer matrix. -/
def aget (A : List (List Int)) (i j : Nat) : Int :=
  (A.getD i []).getD j 0

/-- The square-shape test `n == m` for `n, m = A.shape` (a list-of-rows model
of a rectangular numpy matrix: every row must have `A.length` columns). -/
def isSquare (A : List (List Int)) : Bool :=
  A.all (fun row => row.length == A.length)

/-- `np.asarray(A).nonzero()` zipped: the coordinates of the nonzero entries
in row-major order. -/
def nonzeroCells (A : List (List Int)) : List (Nat × Nat) :=
  ((List.range A.length).map (fun i =>
    ((List.range ((A.getD i []).length)).filter (fun j => decide (aget A i j ≠ 0))).map
      (fun j => (i, j)))).flatten

/-- `[(u, v, dict(weight=1)) for d in range(A[u, v])]`: the parallel-edge
expansion of one matrix cell; `range` of a non-positive value is empty. -/
def expandCell (A : List (List Int)) (c : Nat × Nat) : List (Nat × Nat × Int) :=
  (List.range (aget A c.1 c.2).toNat).map (fun _ => (c.1, c.2, (1 : Int)))

/-- `from_numpy_matrix(A, parallel_edges, create_using)`: the dense decode,
restricted to plain integer matrices (so the `kind_to_python_type` lookup
yields `int` and the compound-dtype branch is out of scope).  `directed` and
`multigraph` are the flags of the `create_using` target. -/
def from_numpy_matrix (A : List (List Int)) (parallel_edges directed multigraph : Bool) :
    Except NXError WGraph :=
  if !(isSquare A) then .error .notSquare
  else
    let cells := nonzeroCells A
    let triples :=
      if multigraph && parallel_edges then (cells.map (expandCell A)).flatten
      else cells.map (fun c => (c.1, c.2, aget A c.1 c.2))
    let triples2 :=
      if multigraph && !directed then triples.filter (fun t => decide (t.1 ≤ t.2.1))
      else triples
    .ok ⟨List.range A.length, triples2⟩

/-- `tuple([attrs[n] for n in names])`: the record of field values for one
edge; a missing attribute is the escaping `KeyError`. -/
def recValues (attrs : Attrs) (names : List String) : Except NXError (List Int) :=
  names.mapM (fun n =>
    match attrs.lookup n with
    | some v => Except.ok v
    | none => Except.error (.missingField n))

/-- `to_numpy_recarray(G, nodelist, dtype, order)`: the structured encode.
Cells are tuples of named integer fields, zero-initialised; refused for
multigraphs by the decorator before anything else runs. -/
def to_numpy_recarray (g : Graph) (nodelist : Option (List Nat))
    (names : List String) : Except NXError (List (List (List Int))) :=
  if g.multigraph then .error .notImplementedForMultigraph
  else
    let nl := nodelist.getD g.nodes
    if nl.length ≠ nl.dedup.length then .error .ambiguousOrdering
    else
      g.edges.foldlM (fun M e =>
        if nl.contains e.1 && nl.contains e.2.1 then do
          let vals ← recValues e.2.2 names
          let M1 := mset M (nlIdx nl e.1) (nlIdx nl e.2.1) vals
          pure (if !g.directed then mset M1 (nlIdx nl e.2.1) (nlIdx nl e.1) vals else M1)
        else pure M)
        (List.replicate nl.length
          (List.replicate nl.length (names.map (fun _ => (0 : Int)))))

/-- The `(index[u], index[v], d.get(weight, 1))` triples of the edges with
both endpoints in the ordering (the body of the `zip(*...)` generator of
`to_scipy_sparse_matrix`). -/
def baseTriplesRaw (g : Graph) (nl : List Nat) (wk : String) :
    List (Nat × Nat × Int) :=
  g.edges.filterMap (fun e =>
    if nl.contains e.1 && nl.contains e.2.1 then
      some (nlIdx nl e.1, nlIdx nl e.2.1, attrGet e.2.2 wk 1)
    else none)

/-- `row, col, data`: empty lists when the graph has no edges, else the
unpacked generator — whose `zip(*gen)` unpacking raises a `ValueError` when
every edge was filtered out. -/
def baseTriplesE (g : Graph) (nl : List Nat) (wk : String) :
    Except NXError (List (Nat × Nat × Int)) :=
  if g.edges.length = 0 then .ok []
  else
    let t := baseTriplesRaw g nl wk
    if t.isEmpty then .error .valueUnpack else .ok t

/-- The diagonal-correction triples `(index[u], index[u], -d.get(weight, 1))`
per in-ordering self-loop edge. -/
def selfloopRaw (g : Graph) (nl : List Nat) (wk : String) :
    List (Nat × Nat × Int) :=
  (g.edges.filter (fun e => e.1 == e.2.1)).filterMap (fun e =>
    if nl.contains e.1 && nl.contains e.2.1 then
      some (nlIdx nl e.1, nlIdx nl e.1, -(attrGet e.2.2 wk 1))
    else none)

/-- The `if selfloops:` block: no correction when the graph has no self-loop
edges; else the unpacked generator, again a `ValueError` when empty. -/
def selfloopTriples (g : Graph) (nl : List Nat) (wk : String) :
    Except NXError (List (Nat × Nat × Int)) :=
  if (g.edges.filter (fun e => e.1 == e.2.1)).isEmpty then .ok []
  else
    let d := selfloopRaw g nl wk
    if d.isEmpty then .error .valueUnpack else .ok d

/-- `zip(col, row, data)`: the row/col-swapped copy of a triple list. -/
def swapTriples (t : List (Nat × Nat × Int)) : List (Nat × Nat × Int) :=
  t.map (fun e => (e.2.1, e.1, e.2.2))

/-- The format names `M.asformat` can handle: it dispatches via
`getattr(M, 'to' + format)`, and a scipy coo matrix has the seven sparse
layout conversions plus the dense `toarray` / `todense` methods — so
`asformat('array')` and `asformat('dense')` succeed too, returning a dense
result.  Any other name raises `AttributeError`, turned into a
`NetworkXError`. -/
def supportedFormats : List String :=
  ["bsr", "csr", "csc", "coo", "lil", "dia", "dok", "array", "dense"]

/-- The coordinate triples fed to `coo_matrix`: directed graphs as-is,
undirected graphs symmetrised (`data+data`, `row+col`, `col+row`) with the
self-loop corrections appended. -/
def scipyTriples (g : Graph) (nl : List Nat) (wk : String) :
    Except NXError (List (Nat × Nat × Int)) := do
  let base ← baseTriplesE g nl wk
  if g.directed then pure base
  else do
    let corr ← selfloopTriples g nl wk
    pure (base ++ swapTriples base ++ corr)

/-- `to_scipy_sparse_matrix(G, nodelist, dtype, weight, format)`: the sparse
encode, returning the coordinate triples of the constructed `coo_matrix`
(materialising a coo matrix sums duplicate entries — see `cooCell`). -/
def to_scipy_sparse_matrix (g : Graph) (nodelist : Option (List Nat))
    (wk : String) (fmt : String) : Except NXError (List (Nat × Nat × Int)) :=
  let nl := nodelist.getD g.nodes
  if nl.length = 0 then .error .emptyGraph
  else if nl.length ≠ nl.dedup.length then .error .ambiguousOrdering
  else do
    let t ← scipyTriples g nl wk
    if supportedFormats.contains fmt then pure t
    else .error (.unknownFormat fmt)

/-- The dense cell value of a coordinate triple list: `coo_matrix((d,(r,c)))`
sums every entry at the same `(i, j)` when materialised. -/
def cooCell (t : List (Nat × Nat × Int)) (i j : Nat) : Int :=
  ((t.filter (fun e => e.1 == i && e.2.1 == j)).map (fun e => e.2.2)).sum

/-- A scipy sparse matrix in one of the four storage layouts the decode
dispatches on (`A.format`); any other scipy format is first converted to
coordinate form, so these four cover the dispatch. -/
inductive SparseMat where
  | csr (shape : Nat × Nat) (data : List Int) (indices : List Nat) (indptr : List Nat)
  | csc (shape : Nat × Nat) (data : List Int) (indices : List Nat) (indptr : List Nat)
  | coo (shape : Nat × Nat) (row : List Nat) (col : List Nat) (data : List Int)
  | dok (shape : Nat × Nat) (entries : List ((Nat × Nat) × Int))
deriving DecidableEq

/-- `A.shape`. -/
def SparseMat.shape : SparseMat → Nat × Nat
  | .csr s _ _ _ => s
  | .csc s _ _ _ => s
  | .coo s _ _ _ => s
  | .dok s _ => s

/-- Python `range(a, b)`. -/
def rangeFromTo (a b : Nat) : List Nat :=
  (List.range (b - a)).map (a + ·)

/-- `_csr_gen_triples`: walk each row's index range of the compressed sparse
row arrays, yielding `(i, indices[j], data[j])`. -/
def csr_gen_triples (nrows : Nat) (data : List Int) (indices : List Nat)
    (indptr : List Nat) : List (Nat × Nat × Int) :=
  ((List.range nrows).map (fun i =>
    (rangeFromTo (indptr.getD i 0) (indptr.getD (i + 1) 0)).map (fun j =>
      (i, indices.getD j 0, data.getD j 0)))).flatten

/-- `_csc_gen_triples`: the column-major mirror image of the CSR walk,
yielding `(indices[j], i, data[j])`. -/
def csc_gen_triples (ncols : Nat) (data : List Int) (indices : List Nat)
    (indptr : List Nat) : List (Nat × Nat × Int) :=
  ((List.range ncols).map (fun i =>
    (rangeFromTo (indptr.getD i 0) (indptr.getD (i + 1) 0)).map (fun j =>
      (indices.getD j 0, i, data.getD j 0)))).flatten

/-- `_coo_gen_triples`: `zip(row, col, data)`. -/
def coo_gen_triples (row col : List Nat) (data : List Int) :
    List (Nat × Nat × Int) :=
  (row.zip (col.zip data)).map (fun e => (e.1, e.2.1, e.2.2))

/-- `_dok_gen_triples`: one triple per `((r, c), v)` mapping entry. -/
def dok_gen_triples (entries : List ((Nat × Nat) × Int)) :
    List (Nat × Nat × Int) :=
  entries.map (fun e => (e.1.1, e.1.2, e.2))

/-- `_generate_weighted_edges`: dispatch on the storage layout. -/
def generate_weighted_edges : SparseMat → List (Nat × Nat × Int)
  | .csr s data indices indptr => csr_gen_triples s.1 data indices indptr
  | .csc s data indices indptr => csc_gen_triples s.2 data indices indptr
  | .coo _ row col data => coo_gen_triples row col data
  | .dok _ entries => dok_gen_triples entries

/-- `from_scipy_sparse_matrix(A, parallel_edges, create_using,
edge_attribute)`: the sparse decode, for integer data (`A.dtype.kind` in
`('i', 'u')`). -/
def from_scipy_sparse_matrix (A : SparseMat) (parallel_edges directed multigraph : Bool) :
    Except NXError WGraph :=
  if A.shape.1 ≠ A.shape.2 then .error .notSquare
  else
    let triples := generate_weighted_edges A
    let triples1 :=
      if multigraph && parallel_edges then
        (triples.map (fun e =>
          (List.range e.2.2.toNat).map (fun _ => (e.1, e.2.1, (1 : Int))))).flatten
      else triples
    let triples2 :=
      if multigraph && !directed then triples1.filter (fun t => decide (t.1 ≤ t.2.1))
      else triples1
    .ok ⟨List.range A.shape.1, triples2⟩

/-! ## Basic list-matrix helper lemmas -/

theorem getD_set_self (l : List α) (i : Nat) (x d : α) (h : i < l.length) :
    (l.set i x).getD i d = x := by
  rw [List.getD_eq_getElem _ _ (by simpa using h)]
  simp [List.getElem_set]

theorem getD_set_of_ne (l : List α) (i j : Nat) (x d : α) (h : i ≠ j) :
    (l.set i x).getD j d = l.getD j d := by
  by_cases hj : j < l.length
  · rw [List.getD_eq_getElem _ _ (by simpa using hj), List.getD_eq_getElem _ _ hj]
    simp [List.getElem_set, h]
  · rw [List.getD_eq_default _ _ (by simpa using Nat.le_of_not_lt hj),
      List.getD_eq_default _ _ (Nat.le_of_not_lt hj)]

theorem getD_map_of_lt (l : List α) (f : α → β) (i : Nat) (d : α) (e : β)
    (h : i < l.length) : (l.map f).getD i e = f (l.getD i d) := by
  rw [List.getD_eq_getElem _ _ (by simpa using h), List.getD_eq_getElem _ _ h]
  simp

theorem getD_replicate_of_lt (n i : Nat) (a d : α) (h : i < n) :
    (List.replicate n a).getD i d = a := by
  rw [List.getD_eq_getElem _ _ (by simpa using h)]
  simp

theorem getD_mem_of_lt (l : List α) (i : Nat) (d : α) (h : i < l.length) :
    l.getD i d ∈ l := by
  rw [List.getD_eq_getElem _ _ h]
  exact List.getElem_mem h

/-- Shape predicate: an n-by-n list-of-rows matrix. -/
def MShape (n : Nat) (M : List (List α)) : Prop :=
  M.length = n ∧ ∀ row ∈ M, row.length = n

theorem mshape_initNan (n : Nat) : MShape n (initNan n) := by
  constructor
  · simp [initNan]
  · intro row hrow
    simp [initNan] at hrow
    simp [hrow.2]

theorem mshape_mset {n : Nat} {M : List (List α)} (h : MShape n M) (i j : Nat) (x : α) :
    MShape n (mset M i j x) := by
  obtain ⟨hlen, hrows⟩ := h
  by_cases hi : i < M.length
  · constructor
    · simp [mset, hlen]
    · intro row hrow
      rcases List.mem_or_eq_of_mem_set hrow with hmem | heq
      · exact hrows row hmem
      · subst heq
        simp only [List.length_set]
        exact hrows _ (getD_mem_of_lt M i [] hi)
  · have hid : mset M i j x = M := by
      rw [mset]
      exact List.set_eq_of_length_le (Nat.le_of_not_lt hi)
    rw [hid]
    exact ⟨hlen, hrows⟩

theorem ncell_initNan (n i j : Nat) : ncell (initNan n) i j = none := by
  by_cases hi : i < n
  · rw [ncell, initNan, getD_replicate_of_lt n i _ _ hi]
    by_cases hj : j < n
    · exact getD_replicate_of_lt n j _ _ hj
    · exact List.getD_eq_default _ _ (by simpa using Nat.le_of_not_lt hj)
  · have h1 : (initNan n).getD i [] = [] :=
      List.getD_eq_default _ _ (by simp [initNan, Nat.le_of_not_lt hi])
    rw [ncell, h1]
    rfl

theorem ncell_mset_self {n : Nat} {M : NanMatrix} (h : MShape n M) {i j : Nat}
    (hi : i < n) (hj : j < n) (x : Option Int) : ncell (mset M i j x) i j = x := by
  obtain ⟨hlen, hrows⟩ := h
  have hiM : i < M.length := by rw [hlen]; exact hi
  have hrow : ((M.getD i []).set j x).length = (M.getD i []).length := by simp
  rw [ncell, mset, getD_set_self _ _ _ _ hiM, getD_set_self]
  rw [hrows _ (getD_mem_of_lt M i [] hiM)]
  exact hj

theorem ncell_mset_of_ne {M : NanMatrix} {p q i j : Nat} (x : Option Int)
    (h : ¬(p = i ∧ q = j)) : ncell (mset M p q x) i j = ncell M i j := by
  by_cases hp : p = i
  · subst hp
    have hq : q ≠ j := fun hq => h ⟨rfl, hq⟩
    by_cases hiM : p < M.length
    · rw [ncell, mset, getD_set_self _ _ _ _ hiM, getD_set_of_ne _ _ _ _ _ hq, ncell]
    · rw [ncell, mset, List.set_eq_of_length_le (Nat.le_of_not_lt hiM), ncell]
  · rw [ncell, mset, getD_set_of_ne _ _ _ _ _ hp, ncell]

theorem icell_sweep {n : Nat} {M : NanMatrix} (h : MShape n M) {i j : Nat}
    (hi : i < n) (hj : j < n) (ne : Int) :
    icell (sweep ne M) i j = (ncell M i j).getD ne := by
  obtain ⟨hlen, hrows⟩ := h
  have hiM : i < M.length := by rw [hlen]; exact hi
  have hjr : j < (M.getD i []).length := by
    rw [hrows _ (getD_mem_of_lt M i [] hiM)]; exact hj
  rw [icell, sweep, getD_map_of_lt _ _ _ [] _ hiM,
    getD_map_of_lt _ _ _ none _ hjr, ncell]

/-! ## Node-index helper lemmas -/

theorem nlIdx_get (nl : List Nat) (u : Nat) (h : u ∈ nl) :
    nl.get? (nlIdx nl u) = some u := by
  induction nl with
  | nil => simp at h
  | cons a t ih =>
    by_cases hau : a = u
    · subst hau
      simp [nlIdx, List.findIdx_cons]
    · have hu : u ∈ t := by
        rcases List.mem_cons.mp h with h1 | h1
        · exact absurd h1.symm hau
        · exact h1
      have hb : (a == u) = false := by simp [hau]
      simp only [nlIdx, List.findIdx_cons, hb, cond_false]
      simpa [nlIdx] using ih hu

theorem nlIdx_lt_of_mem {nl : List Nat} {u : Nat} (h : u ∈ nl) :
    nlIdx nl u < nl.length := by
  by_contra hge
  have := nlIdx_get nl u h
  rw [List.get?_eq_none.mpr (Nat.le_of_not_lt hge)] at this
  exact Option.noConfusion this

theorem nlIdx_inj {nl : List Nat} {u v : Nat} (hu : u ∈ nl) (hv : v ∈ nl)
    (h : nlIdx nl u = nlIdx nl v) : u = v := by
  have h1 := nlIdx_get nl u hu
  have h2 := nlIdx_get nl v hv
  rw [h] at h1
  rw [h1] at h2
  exact Option.some.inj h2

theorem contains_iff_mem (l : List Nat) (a : Nat) : l.contains a = true ↔ a ∈ l := by
  simp [List.contains]

theorem nodup_iff_dedup_length (l : List Nat) :
    l.Nodup ↔ l.length = l.dedup.length := by
  constructor
  · intro h
    rw [List.dedup_eq_self.mpr h]
  · intro h
    have hsub := List.dedup_sublist l
    have : l.dedup = l := hsub.eq_of_length h.symm
    rw [← this]
    exact List.nodup_dedup l

theorem foldl_filter_of_id {f : β → α → β} {p : α → Bool} (l : List α)
    (h : ∀ b x, x ∈ l → p x = false → f b x = b) :
    ∀ b, l.foldl f b = (l.filter p).foldl f b := by
  induction l with
  | nil => intro b; rfl
  | cons a t ih =>
    intro b
    by_cases hp : p a = true
    · rw [List.foldl_cons, List.filter_cons_of_pos hp, List.foldl_cons]
      exact ih (fun c x hx hpx => h c x (List.mem_cons_of_mem a hx) hpx) (f b a)
    · have hpf : p a = false := Bool.eq_false_iff.mpr hp
      rw [List.foldl_cons, h b a (List.mem_cons_self a t) hpf,
        List.filter_cons_of_neg (by simp [hpf])]
      exact ih (fun c x hx hpx => h c x (List.mem_cons_of_mem a hx) hpx) b

/-! ## Claim theorems -/

/-- C1: dense encode of the MultiDiGraph with edges (0→1, weight 2),
(1→0, default weight 1), (2→2, weight 3), (2→2, default weight 1) over
ordering [0,1,2] with the sum reducer returns exactly
[[0,2,0],[1,0,0],[0,0,4]]: parallel-edge weights are combined by the reducer,
a missing weight attribute contributes the default 1, and cells with no edge
hold the nonedge value 0. -/
theorem multidigraph_sum_matrix :
    to_numpy_matrix
      ⟨[0, 1, 2], [(0, 1, [("weight", 2)]), (1, 0, []), (2, 2, [("weight", 3)]), (2, 2, [])],
        true, true⟩
      (some [0, 1, 2]) .rsum "weight" 0
      = .ok [[0, 2, 0], [1, 0, 0], [0, 0, 4]] := by
  rfl

/-- C5 (amended): for every node ordering with a repeated identifier, the
dense and sparse encodes raise the ambiguous-ordering error (the duplicate
detected by comparing the sequence length with its deduplicated length,
before any matrix is allocated); the structured encode does so for every
non-multigraph graph, while on a multigraph target its
not-implemented-for-multigraph guard fires first instead. -/
theorem dup_ordering_ambiguous (g : Graph) (nl : List Nat) (r : Reducer)
    (wk fmt : String) (ne : Int) (names : List String) (hdup : ¬nl.Nodup) :
    to_numpy_matrix g (some nl) r wk ne = .error .ambiguousOrdering
    ∧ to_scipy_sparse_matrix g (some nl) wk fmt = .error .ambiguousOrdering
    ∧ (g.multigraph = false →
        to_numpy_recarray g (some nl) names = .error .ambiguousOrdering) := by
  have hne : nl.length ≠ nl.dedup.length := fun h =>
    hdup ((nodup_iff_dedup_length nl).mpr h)
  have hne0 : nl.length ≠ 0 := by
    intro h0
    exact hdup (by simp [List.length_eq_zero.mp h0])
  refine ⟨?_, ?_, ?_⟩
  · simp [to_numpy_matrix, hne]
  · simp [to_scipy_sparse_matrix, hne, hne0]
  · intro hm
    simp [to_numpy_recarray, hm, hne]

/-- Witness for C5's theorem at a concrete duplicated ordering. -/
theorem dup_ordering_ambiguous_witness :
    to_numpy_matrix ⟨[0], [], false, false⟩ (some [0, 0]) .rsum "weight" 0
      = .error .ambiguousOrdering
    ∧ to_scipy_sparse_matrix ⟨[0], [], false, false⟩ (some [0, 0]) "weight" "csr"
      = .error .ambiguousOrdering
    ∧ ((false : Bool) = false →
        to_numpy_recarray ⟨[0], [], false, false⟩ (some [0, 0]) ["weight"]
          = .error .ambiguousOrdering) :=
  dup_ordering_ambiguous ⟨[0], [], false, false⟩ [0, 0] .rsum "weight" "csr" 0
    ["weight"] (by decide)

/-- Counterexample for C5 as frozen: on a multigraph target, the structured
encode with a duplicated ordering raises the not-implemented-for-multigraph
error, not the ambiguous-ordering error. -/
theorem dup_ordering_recarray_cex :
    to_numpy_recarray ⟨[0], [], false, true⟩ (some [0, 0]) ["weight"]
      = .error .notImplementedForMultigraph
    ∧ ¬([0, 0] : List Nat).Nodup := by
  exact ⟨rfl, by decide⟩

/-- C7 (amended): for every multigraph with a duplicate-free effective node
ordering, a reducer argument outside {sum, min, max} makes the dense encode
fail with the unknown-reducer error; for a non-multigraph the reducer is
never consulted. -/
theorem unknown_reducer_error (g : Graph) (nodelist : Option (List Nat))
    (r : Reducer) (wk : String) (ne : Int) (hm : g.multigraph = true)
    (hnd : (nodelist.getD g.nodes).Nodup) (hr : reducerOp r = none) :
    to_numpy_matrix g nodelist r wk ne = .error .unknownReducer := by
  have hlen : (nodelist.getD g.nodes).length = (nodelist.getD g.nodes).dedup.length :=
    (nodup_iff_dedup_length _).mp hnd
  simp [to_numpy_matrix, hlen, hm, hr]

/-- Witness for C7's theorem at a concrete multigraph and reducer. -/
theorem unknown_reducer_error_witness :
    to_numpy_matrix ⟨[0], [], true, true⟩ (some [0]) (.other "mean") "weight" 0
      = .error .unknownReducer :=
  unknown_reducer_error ⟨[0], [], true, true⟩ (some [0]) (.other "mean")
    "weight" 0 rfl (by decide) rfl

/-- Counterexample for C7 as frozen: on a simple (non-multi) graph the dense
encode succeeds even though the reducer argument is not one of
{sum, min, max}. -/
theorem unknown_reducer_simple_cex :
    to_numpy_matrix ⟨[0], [], false, false⟩ (some [0]) (.other "mean") "weight" 0
      = .ok [[0]]
    ∧ reducerOp (.other "mean") = none := by
  exact ⟨rfl, rfl⟩

/-- C10 (amended): sparse encode takes a format-name argument; on a valid
graph and ordering whose triples were built, a format name outside the nine
`asformat` targets (the seven sparse layouts plus the dense "array" and
"dense" conversions) yields the unknown-format error and no matrix. -/
theorem unknown_format_error (g : Graph) (nodelist : Option (List Nat))
    (wk fmt : String) (t : List (Nat × Nat × Int))
    (hne : nodelist.getD g.nodes ≠ []) (hnd : (nodelist.getD g.nodes).Nodup)
    (ht : scipyTriples g (nodelist.getD g.nodes) wk = .ok t)
    (hfmt : supportedFormats.contains fmt = false) :
    to_scipy_sparse_matrix g nodelist wk fmt = .error (.unknownFormat fmt) := by
  have hlen : (nodelist.getD g.nodes).length = (nodelist.getD g.nodes).dedup.length :=
    (nodup_iff_dedup_length _).mp hnd
  have hlen0 : (nodelist.getD g.nodes).length ≠ 0 := by
    simpa [List.length_eq_zero] using hne
  have hmem : ¬fmt ∈ supportedFormats := by simpa using hfmt
  simp [to_scipy_sparse_matrix, hlen0, hlen, ht, hfmt, hne, hmem, Except.bind, Bind.bind]

/-- Counterexample for C10 as frozen: the format name "array" is not one of
the docstring's seven sparse layouts, yet sparse encode succeeds on it (the
coo matrix has a `toarray` method, so `asformat` raises nothing). -/
theorem dense_format_no_error_cex :
    to_scipy_sparse_matrix ⟨[0, 1], [(0, 1, [])], false, false⟩ none "weight" "array"
      = .ok [(0, 1, 1), (1, 0, 1)]
    ∧ ¬"array" ∈ ["bsr", "csr", "csc", "coo", "lil", "dia", "dok"] := by
  exact ⟨rfl, by decide⟩

/-- Witness for C10's theorem at a concrete graph and format name. -/
theorem unknown_format_error_witness :
    to_scipy_sparse_matrix ⟨[0, 1], [(0, 1, [])], false, false⟩ none "weight" "foo"
      = .error (.unknownFormat "foo") :=
  unknown_format_error ⟨[0, 1], [(0, 1, [])], false, false⟩ none "weight" "foo"
    [(0, 1, 1), (1, 0, 1)] (by decide) (by decide) rfl rfl

/-- C8: sparse encode on a graph with at least one node and zero edges
returns empty triple lists without error, while on a graph with zero nodes it
fails with the empty-graph error. -/
theorem sparse_edgeless_and_empty (g : Graph) (wk fmt : String) :
    (g.nodes ≠ [] → g.nodes.Nodup → g.edges = [] →
      supportedFormats.contains fmt = true →
      to_scipy_sparse_matrix g none wk fmt = .ok [])
    ∧ (g.nodes = [] → to_scipy_sparse_matrix g none wk fmt = .error .emptyGraph) := by
  constructor
  · intro h1 h2 h3 h4
    have hlen : g.nodes.length = g.nodes.dedup.length :=
      (nodup_iff_dedup_length _).mp h2
    have hlen0 : g.nodes.length ≠ 0 := by
      simpa [List.length_eq_zero] using h1
    have hmem : fmt ∈ supportedFormats := by simpa using h4
    cases hd : g.directed
    · simp [to_scipy_sparse_matrix, hlen0, hlen, scipyTriples, baseTriplesE, h3,
        hd, selfloopTriples, h4, swapTriples, h1, hmem, Except.bind, Bind.bind, pure, Except.pure]
    · simp [to_scipy_sparse_matrix, hlen0, hlen, scipyTriples, baseTriplesE, h3,
        hd, h4, h1, hmem, Except.bind, Bind.bind, pure, Except.pure]
  · intro h1
    simp [to_scipy_sparse_matrix, h1]

/-- Witness for C8's theorem: an edgeless one-node graph and the empty
graph. -/
theorem sparse_edgeless_and_empty_witness :
    to_scipy_sparse_matrix ⟨[0, 5], [], true, false⟩ none "weight" "csr" = .ok []
    ∧ to_scipy_sparse_matrix ⟨[], [], false, false⟩ none "weight" "csr"
      = .error .emptyGraph :=
  ⟨(sparse_edgeless_and_empty ⟨[0, 5], [], true, false⟩ "weight" "csr").1
      (by decide) (by decide) rfl rfl,
    (sparse_edgeless_and_empty ⟨[], [], false, false⟩ "weight" "csr").2 rfl⟩

theorem applyEdgeMulti_skip (op : Int → Int → Int) (und : Bool) (nl : List Nat)
    (wk : String) (M : NanMatrix) (e : Nat × Nat × Attrs)
    (h : (nl.contains e.1 && nl.contains e.2.1) = false) :
    applyEdgeMulti op und nl wk M e = M := by
  simp only [applyEdgeMulti, h, Bool.false_eq_true, if_false]

theorem applyEdgeSimple_skip (nl : List Nat) (wk : String) (M : NanMatrix)
    (e : Nat × Nat × Attrs)
    (h : (nl.contains e.1 && nl.contains e.2.1) = false) :
    applyEdgeSimple nl wk M e = M := by
  simp only [applyEdgeSimple, h, Bool.false_eq_true, if_false]

theorem filter_of_map (f : α → β) (p : β → Bool) (l : List α) :
    (l.map f).filter p = (l.filter (fun a => p (f a))).map f := by
  induction l with
  | nil => rfl
  | cons a t ih =>
    by_cases h : p (f a) = true
    · simp [h, ih]
    · have h2 : p (f a) = false := Bool.eq_false_iff.mpr h
      simp [h2, ih]

theorem adjEntries_induced (g : Graph) (nl : List Nat) :
    (adjEntries g).filter (fun e => nl.contains e.1 && nl.contains e.2.1)
      = adjEntries (inducedSubgraph g nl) := by
  by_cases hd : g.directed = true
  · simp [adjEntries, inducedSubgraph, hd]
  · have hd2 : g.directed = false := Bool.eq_false_iff.mpr hd
    simp only [adjEntries, inducedSubgraph, hd2, Bool.false_eq_true, if_false,
      List.filter_append]
    congr 1
    rw [filter_of_map]
    have hcomm : ∀ e ∈ g.edges.filter (fun e => !(e.1 == e.2.1)),
        (nl.contains e.2.1 && nl.contains e.1)
          = (nl.contains e.1 && nl.contains e.2.1) := by
      intro e _
      exact Bool.and_comm _ _
    rw [List.filter_congr hcomm, List.filter_comm]

/-- Unfolding of the dense encode once a duplicate-free explicit ordering has
passed the ambiguity check. -/
theorem to_numpy_matrix_of_nodup (g : Graph) (nl : List Nat) (r : Reducer)
    (wk : String) (ne : Int) (hnd : nl.Nodup) :
    to_numpy_matrix g (some nl) r wk ne
      = (if g.multigraph then
          match reducerOp r with
          | none => .error .unknownReducer
          | some op =>
              .ok (sweep ne
                (g.edges.foldl (applyEdgeMulti op (!g.directed) nl wk) (initNan nl.length)))
        else
          .ok (sweep ne
            ((adjEntries g).foldl (applyEdgeSimple nl wk) (initNan nl.length)))) := by
  have hlen : nl.length = nl.dedup.length := (nodup_iff_dedup_length nl).mp hnd
  simp only [to_numpy_matrix, Option.getD_some]
  rw [if_neg (not_ne_iff.mpr hlen)]

/-- C6: for every graph and duplicate-free node ordering omitting some graph
node, dense encode equals the dense encode of the induced subgraph on the
listed nodes (edges touching excluded nodes are silently dropped), and no
error is raised (the reducer being consultable when the graph is a
multigraph). -/
theorem induced_subgraph_encode (g : Graph) (nl : List Nat) (r : Reducer)
    (wk : String) (ne : Int) (hnd : nl.Nodup)
    (homit : ∃ x, x ∈ g.nodes ∧ ¬x ∈ nl)
    (hr : g.multigraph = true → (reducerOp r).isSome = true) :
    to_numpy_matrix g (some nl) r wk ne
      = to_numpy_matrix (inducedSubgraph g nl) (some nl) r wk ne
    ∧ ∃ M, to_numpy_matrix g (some nl) r wk ne = .ok M := by
  have hmg : (inducedSubgraph g nl).multigraph = g.multigraph := rfl
  have hdg : (inducedSubgraph g nl).directed = g.directed := rfl
  have heg : (inducedSubgraph g nl).edges
      = g.edges.filter (fun e => nl.contains e.1 && nl.contains e.2.1) := rfl
  rw [to_numpy_matrix_of_nodup g nl r wk ne hnd,
    to_numpy_matrix_of_nodup (inducedSubgraph g nl) nl r wk ne hnd,
    hmg, hdg, heg]
  constructor
  · by_cases hm : g.multigraph = true
    · cases hop : reducerOp r with
      | none => simp [hm, hop]
      | some op =>
        have hfold := foldl_filter_of_id g.edges
          (fun b x _ hx => applyEdgeMulti_skip op (!g.directed) nl wk b x hx)
          (initNan nl.length)
        simp only [hm, if_true, hop, hfold]
    · have hm2 : g.multigraph = false := Bool.eq_false_iff.mpr hm
      have hfold := foldl_filter_of_id (adjEntries g)
        (fun b x _ hx => applyEdgeSimple_skip nl wk b x hx)
        (initNan nl.length)
      simp only [hm2, Bool.false_eq_true, if_false, hfold, adjEntries_induced]
  · by_cases hm : g.multigraph = true
    · obtain ⟨op, hop⟩ := Option.isSome_iff_exists.mp (hr hm)
      simp only [hm, if_true, hop]
      exact ⟨_, rfl⟩
    · have hm2 : g.multigraph = false := Bool.eq_false_iff.mpr hm
      simp only [hm2, Bool.false_eq_true, if_false]
      exact ⟨_, rfl⟩

/-- Witness for C6's theorem: ordering [0,1] on a three-node graph with an
edge into the omitted node 2. -/
theorem induced_subgraph_encode_witness :
    to_numpy_matrix ⟨[0, 1, 2], [(0, 1, []), (1, 2, [])], true, false⟩
        (some [0, 1]) .rsum "weight" 0
      = to_numpy_matrix
          (inducedSubgraph ⟨[0, 1, 2], [(0, 1, []), (1, 2, [])], true, false⟩ [0, 1])
          (some [0, 1]) .rsum "weight" 0
    ∧ ∃ M, to_numpy_matrix ⟨[0, 1, 2], [(0, 1, []), (1, 2, [])], true, false⟩
        (some [0, 1]) .rsum "weight" 0 = .ok M :=
  induced_subgraph_encode ⟨[0, 1, 2], [(0, 1, []), (1, 2, [])], true, false⟩
    [0, 1] .rsum "weight" 0 (by decide) ⟨2, by decide, by decide⟩
    (fun h => Bool.noConfusion h)

theorem mshape_applyEdgeMulti {n : Nat} {M : NanMatrix} (h : MShape n M)
    (op : Int → Int → Int) (und : Bool) (nl : List Nat) (wk : String)
    (e : Nat × Nat × Attrs) : MShape n (applyEdgeMulti op und nl wk M e) := by
  rw [applyEdgeMulti]
  by_cases hc : (nl.contains e.1 && nl.contains e.2.1) = true
  · rw [if_pos hc]
    cases und
    · simpa using mshape_mset h _ _ _
    · simpa using mshape_mset (mshape_mset h _ _ _) _ _ _
  · rw [if_neg hc]
    exact h

theorem mshape_applyEdgeSimple {n : Nat} {M : NanMatrix} (h : MShape n M)
    (nl : List Nat) (wk : String) (e : Nat × Nat × Attrs) :
    MShape n (applyEdgeSimple nl wk M e) := by
  rw [applyEdgeSimple]
  by_cases hc : (nl.contains e.1 && nl.contains e.2.1) = true
  · rw [if_pos hc]
    exact mshape_mset h _ _ _
  · rw [if_neg hc]
    exact h

theorem not_hits_diag {nl : List Nat} {u : Nat} (hu : u ∈ nl)
    {e : Nat × Nat × Attrs} (hne : (e.1 == u && e.2.1 == u) = false)
    (hc : (nl.contains e.1 && nl.contains e.2.1) = true) :
    ¬(nlIdx nl e.1 = nlIdx nl u ∧ nlIdx nl e.2.1 = nlIdx nl u) := by
  rintro ⟨h1, h2⟩
  have hc1 : e.1 ∈ nl := (contains_iff_mem nl e.1).mp (Bool.and_elim_left hc)
  have hc2 : e.2.1 ∈ nl := (contains_iff_mem nl e.2.1).mp (Bool.and_elim_right hc)
  have he1 : e.1 = u := nlIdx_inj hc1 hu h1
  have he2 : e.2.1 = u := nlIdx_inj hc2 hu h2
  rw [he1, he2] at hne
  simp at hne

theorem applyEdgeMulti_ncell_diag {nl : List Nat} {u : Nat} (hu : u ∈ nl)
    (op : Int → Int → Int) (und : Bool) (wk : String) (M : NanMatrix)
    {e : Nat × Nat × Attrs} (hne : (e.1 == u && e.2.1 == u) = false) :
    ncell (applyEdgeMulti op und nl wk M e) (nlIdx nl u) (nlIdx nl u)
      = ncell M (nlIdx nl u) (nlIdx nl u) := by
  rw [applyEdgeMulti]
  by_cases hc : (nl.contains e.1 && nl.contains e.2.1) = true
  · rw [if_pos hc]
    have hd := not_hits_diag hu hne hc
    cases und
    · simp only [Bool.false_eq_true, if_false]
      exact ncell_mset_of_ne _ hd
    · simp only [if_true]
      rw [ncell_mset_of_ne _ (fun h => hd ⟨h.2, h.1⟩), ncell_mset_of_ne _ hd]
  · rw [if_neg hc]

theorem applyEdgeSimple_ncell_diag {nl : List Nat} {u : Nat} (hu : u ∈ nl)
    (wk : String) (M : NanMatrix) {e : Nat × Nat × Attrs}
    (hne : (e.1 == u && e.2.1 == u) = false) :
    ncell (applyEdgeSimple nl wk M e) (nlIdx nl u) (nlIdx nl u)
      = ncell M (nlIdx nl u) (nlIdx nl u) := by
  rw [applyEdgeSimple]
  by_cases hc : (nl.contains e.1 && nl.contains e.2.1) = true
  · rw [if_pos hc]
    exact ncell_mset_of_ne _ (not_hits_diag hu hne hc)
  · rw [if_neg hc]

theorem foldl_multi_diag_untouched {nl : List Nat} {u : Nat} (hu : u ∈ nl)
    (op : Int → Int → Int) (und : Bool) (wk : String) :
    ∀ (l : List (Nat × Nat × Attrs)) (M : NanMatrix),
      (∀ e ∈ l, (e.1 == u && e.2.1 == u) = false) →
      ncell (l.foldl (applyEdgeMulti op und nl wk) M) (nlIdx nl u) (nlIdx nl u)
        = ncell M (nlIdx nl u) (nlIdx nl u) := by
  intro l
  induction l with
  | nil => intro M _; rfl
  | cons e t ih =>
    intro M h
    rw [List.foldl_cons,
      ih _ (fun x hx => h x (List.mem_cons_of_mem e hx)),
      applyEdgeMulti_ncell_diag hu op und wk M (h e (List.mem_cons_self e t))]

theorem foldl_simple_diag_untouched {nl : List Nat} {u : Nat} (hu : u ∈ nl)
    (wk : String) :
    ∀ (l : List (Nat × Nat × Attrs)) (M : NanMatrix),
      (∀ e ∈ l, (e.1 == u && e.2.1 == u) = false) →
      ncell (l.foldl (applyEdgeSimple nl wk) M) (nlIdx nl u) (nlIdx nl u)
        = ncell M (nlIdx nl u) (nlIdx nl u) := by
  intro l
  induction l with
  | nil => intro M _; rfl
  | cons e t ih =>
    intro M h
    rw [List.foldl_cons,
      ih _ (fun x hx => h x (List.mem_cons_of_mem e hx)),
      applyEdgeSimple_ncell_diag hu wk M (h e (List.mem_cons_self e t))]

theorem foldl_multi_diag_single {nl : List Nat} {u : Nat} {a : Attrs}
    (op : Int → Int → Int) (und : Bool) (wk : String) (hu : u ∈ nl) :
    ∀ (l : List (Nat × Nat × Attrs)) (M : NanMatrix), MShape nl.length M →
      l.filter (fun e => e.1 == u && e.2.1 == u) = [(u, u, a)] →
      ncell (l.foldl (applyEdgeMulti op und nl wk) M) (nlIdx nl u) (nlIdx nl u)
        = some (nanOp op (attrGet a wk 1) (ncell M (nlIdx nl u) (nlIdx nl u))) := by
  intro l
  induction l with
  | nil => intro M _ hf; exact absurd hf (by simp)
  | cons e t ih =>
    intro M hsh hf
    by_cases hp : (e.1 == u && e.2.1 == u) = true
    · simp only [List.filter_cons, hp, if_true, List.cons.injEq] at hf
      obtain ⟨he, hrest⟩ := hf
      subst he
      have hI : nlIdx nl u < nl.length := nlIdx_lt_of_mem hu
      have hcu : nl.contains u = true := (contains_iff_mem nl u).mpr hu
      rw [List.foldl_cons,
        foldl_multi_diag_untouched hu op und wk t _
          (by
            intro x hx
            have := List.filter_eq_nil_iff.mp hrest x hx
            simpa using this)]
      rw [applyEdgeMulti]
      simp only [hcu, Bool.and_self, if_true]
      cases und
      · simp only [Bool.false_eq_true, if_false]
        rw [ncell_mset_self hsh hI hI]
      · simp only [if_true]
        rw [ncell_mset_self (mshape_mset hsh _ _ _) hI hI]
    · have hp2 : (e.1 == u && e.2.1 == u) = false := Bool.eq_false_iff.mpr hp
      simp only [List.filter_cons, hp2, Bool.false_eq_true, if_false] at hf
      rw [List.foldl_cons,
        ih _ (mshape_applyEdgeMulti hsh op und nl wk e) hf,
        applyEdgeMulti_ncell_diag hu op und wk M hp2]

theorem foldl_simple_diag_single {nl : List Nat} {u : Nat} {a : Attrs}
    (wk : String) (hu : u ∈ nl) :
    ∀ (l : List (Nat × Nat × Attrs)) (M : NanMatrix), MShape nl.length M →
      l.filter (fun e => e.1 == u && e.2.1 == u) = [(u, u, a)] →
      ncell (l.foldl (applyEdgeSimple nl wk) M) (nlIdx nl u) (nlIdx nl u)
        = some (attrGet a wk 1) := by
  intro l
  induction l with
  | nil => intro M _ hf; exact absurd hf (by simp)
  | cons e t ih =>
    intro M hsh hf
    by_cases hp : (e.1 == u && e.2.1 == u) = true
    · simp only [List.filter_cons, hp, if_true, List.cons.injEq] at hf
      obtain ⟨he, hrest⟩ := hf
      subst he
      have hI : nlIdx nl u < nl.length := nlIdx_lt_of_mem hu
      have hcu : nl.contains u = true := (contains_iff_mem nl u).mpr hu
      rw [List.foldl_cons,
        foldl_simple_diag_untouched hu wk t _
          (by
            intro x hx
            have := List.filter_eq_nil_iff.mp hrest x hx
            simpa using this)]
      rw [applyEdgeSimple]
      simp only [hcu, Bool.and_self, if_true]
      rw [ncell_mset_self hsh hI hI]
    · have hp2 : (e.1 == u && e.2.1 == u) = false := Bool.eq_false_iff.mpr hp
      simp only [List.filter_cons, hp2, Bool.false_eq_true, if_false] at hf
      rw [List.foldl_cons, ih _ (mshape_applyEdgeSimple hsh nl wk e) hf]

theorem mshape_foldl_multi {n : Nat} (op : Int → Int → Int) (und : Bool)
    (nl : List Nat) (wk : String) :
    ∀ (l : List (Nat × Nat × Attrs)) (M : NanMatrix), MShape n M →
      MShape n (l.foldl (applyEdgeMulti op und nl wk) M) := by
  intro l
  induction l with
  | nil => intro M h; exact h
  | cons e t ih =>
    intro M h
    rw [List.foldl_cons]
    exact ih _ (mshape_applyEdgeMulti h op und nl wk e)

theorem mshape_foldl_simple {n : Nat} (nl : List Nat) (wk : String) :
    ∀ (l : List (Nat × Nat × Attrs)) (M : NanMatrix), MShape n M →
      MShape n (l.foldl (applyEdgeSimple nl wk) M) := by
  intro l
  induction l with
  | nil => intro M h; exact h
  | cons e t ih =>
    intro M h
    rw [List.foldl_cons]
    exact ih _ (mshape_applyEdgeSimple h nl wk e)

theorem adjEntries_filter_diag (g : Graph) (u : Nat) (a : Attrs)
    (huniq : g.edges.filter (fun e => e.1 == u && e.2.1 == u) = [(u, u, a)]) :
    (adjEntries g).filter (fun e => e.1 == u && e.2.1 == u) = [(u, u, a)] := by
  rw [adjEntries]
  by_cases hd : g.directed = true
  · rw [if_pos hd]
    exact huniq
  · rw [if_neg hd, List.filter_append, huniq, filter_of_map]
    have hnil : (g.edges.filter (fun e => !(e.1 == e.2.1))).filter
        (fun e => e.2.1 == u && e.1 == u) = [] := by
      rw [List.filter_eq_nil_iff]
      intro x hx
      have hns : x.1 ≠ x.2.1 := by
        have := (List.mem_filter.mp hx).2
        simpa using this
      simp only [Bool.and_eq_true, beq_iff_eq, not_and]
      intro h1 h2
      exact hns (h2.trans h1.symm)
    rw [hnil]
    rfl

/-- C2: for every graph with exactly one self-loop edge at a node of the
ordering, dense encode writes that self-loop's weight into the single
diagonal cell of the node — not twice the weight; in particular encoding the
undirected simple graph with the single unweighted self-loop edge (1,1)
yields the 1-by-1 matrix [[1]]. -/
theorem selfloop_single_diagonal (g : Graph) (nl : List Nat) (u : Nat)
    (a : Attrs) (r : Reducer) (wk : String) (ne : Int) (op : Int → Int → Int)
    (hnd : nl.Nodup) (hu : u ∈ nl)
    (huniq : g.edges.filter (fun e => e.1 == u && e.2.1 == u) = [(u, u, a)])
    (hr : g.multigraph = true → reducerOp r = some op) :
    (∃ M, to_numpy_matrix g (some nl) r wk ne = .ok M
      ∧ icell M (nlIdx nl u) (nlIdx nl u) = attrGet a wk 1)
    ∧ to_numpy_matrix ⟨[1], [(1, 1, [])], false, false⟩ none .rsum "weight" 0
        = .ok [[1]] := by
  refine ⟨?_, rfl⟩
  rw [to_numpy_matrix_of_nodup g nl r wk ne hnd]
  have hI : nlIdx nl u < nl.length := nlIdx_lt_of_mem hu
  have hsh := mshape_initNan nl.length
  by_cases hm : g.multigraph = true
  · rw [hm, if_pos rfl, hr hm]
    refine ⟨_, rfl, ?_⟩
    rw [icell_sweep
        (mshape_foldl_multi op (!g.directed) nl wk g.edges _ hsh) hI hI,
      foldl_multi_diag_single _ (!g.directed) wk hu g.edges _ hsh huniq,
      ncell_initNan]
    rfl
  · have hm2 : g.multigraph = false := Bool.eq_false_iff.mpr hm
    rw [hm2]
    simp only [Bool.false_eq_true, if_false]
    refine ⟨_, rfl, ?_⟩
    rw [icell_sweep (mshape_foldl_simple nl wk (adjEntries g) _ hsh) hI hI,
      foldl_simple_diag_single wk hu (adjEntries g) _ hsh
        (adjEntries_filter_diag g u a huniq)]
    rfl

/-- Witness for C2's theorem at the undirected one-node self-loop graph. -/
theorem selfloop_single_diagonal_witness :
    (∃ M, to_numpy_matrix ⟨[1], [(1, 1, [])], false, false⟩ (some [1]) .rsum "weight" 0
        = .ok M
      ∧ icell M (nlIdx [1] 1) (nlIdx [1] 1) = attrGet [] "weight" 1)
    ∧ to_numpy_matrix ⟨[1], [(1, 1, [])], false, false⟩ none .rsum "weight" 0
        = .ok [[1]] :=
  selfloop_single_diagonal ⟨[1], [(1, 1, [])], false, false⟩ [1] 1 [] .rsum
    "weight" 0 (· + ·) (by decide) (by decide) (by decide)
    (fun h => absurd h (by decide))

/-! ## Coordinate-triple helper lemmas -/

theorem cooCell_cons (e : Nat × Nat × Int) (t : List (Nat × Nat × Int)) (i j : Nat) :
    cooCell (e :: t) i j
      = (if (e.1 == i && e.2.1 == j) = true then e.2.2 else 0) + cooCell t i j := by
  by_cases h : (e.1 == i && e.2.1 == j) = true
  · simp [cooCell, List.filter_cons, h]
  · have h2 : (e.1 == i && e.2.1 == j) = false := Bool.eq_false_iff.mpr h
    simp [cooCell, List.filter_cons, h2]

theorem cooCell_append (s t : List (Nat × Nat × Int)) (i j : Nat) :
    cooCell (s ++ t) i j = cooCell s i j + cooCell t i j := by
  simp [cooCell, List.filter_append]

theorem cooCell_swap_diag (t : List (Nat × Nat × Int)) (i : Nat) :
    cooCell (swapTriples t) i i = cooCell t i i := by
  induction t with
  | nil => rfl
  | cons e s ih =>
    have hh : swapTriples (e :: s) = (e.2.1, e.1, e.2.2) :: swapTriples s := rfl
    rw [hh, cooCell_cons, cooCell_cons, ih, Bool.and_comm]

theorem selfloopRaw_diag_cancel (g : Graph) (nl : List Nat) (wk : String)
    (i : Nat) :
    cooCell (selfloopRaw g nl wk) i i = -cooCell (baseTriplesRaw g nl wk) i i := by
  rw [selfloopRaw, baseTriplesRaw]
  generalize g.edges = es
  induction es with
  | nil => simp [cooCell]
  | cons e t ih =>
    by_cases hs : (e.1 == e.2.1) = true
    · have hee : e.1 = e.2.1 := by simpa using hs
      simp only [List.filter_cons, hs, if_true]
      by_cases hc : (nl.contains e.1 && nl.contains e.2.1) = true
      · simp only [List.filterMap_cons, hc, if_true]
        rw [cooCell_cons, cooCell_cons, ih]
        have hj : nlIdx nl e.2.1 = nlIdx nl e.1 := by rw [hee]
        rw [hj]
        by_cases hd : ((nlIdx nl e.1 == i) && (nlIdx nl e.1 == i)) = true
        · rw [if_pos hd, if_pos hd]
          ring
        · rw [if_neg hd, if_neg hd]
          ring
      · have hc2 : (nl.contains e.1 && nl.contains e.2.1) = false :=
          Bool.eq_false_iff.mpr hc
        simp only [List.filterMap_cons, hc2, Bool.false_eq_true, if_false]
        exact ih
    · have hs2 : (e.1 == e.2.1) = false := Bool.eq_false_iff.mpr hs
      simp only [List.filter_cons, hs2, Bool.false_eq_true, if_false]
      by_cases hc : (nl.contains e.1 && nl.contains e.2.1) = true
      · simp only [List.filterMap_cons, hc, if_true]
        rw [cooCell_cons]
        have hz : ((nlIdx nl e.1 == i) && (nlIdx nl e.2.1 == i)) = false := by
          apply Bool.eq_false_iff.mpr
          intro hzt
          rw [Bool.and_eq_true] at hzt
          obtain ⟨h1, h2⟩ := hzt
          have h1b : nlIdx nl e.1 = i := by simpa using h1
          have h2b : nlIdx nl e.2.1 = i := by simpa using h2
          have hm1 : e.1 ∈ nl := (contains_iff_mem nl e.1).mp (Bool.and_elim_left hc)
          have hm2 : e.2.1 ∈ nl := (contains_iff_mem nl e.2.1).mp (Bool.and_elim_right hc)
          have hcon : e.1 = e.2.1 := nlIdx_inj hm1 hm2 (h1b.trans h2b.symm)
          simp [hcon] at hs2
        rw [hz]
        simp only [Bool.false_eq_true, if_false, zero_add]
        simpa using ih
      · have hc2 : (nl.contains e.1 && nl.contains e.2.1) = false :=
          Bool.eq_false_iff.mpr hc
        simp only [List.filterMap_cons, hc2, Bool.false_eq_true, if_false]
        exact ih

theorem baseTriplesE_ok (g : Graph) (nl : List Nat) (wk : String)
    (b : List (Nat × Nat × Int)) (hb : baseTriplesE g nl wk = .ok b) :
    b = baseTriplesRaw g nl wk := by
  rw [baseTriplesE] at hb
  by_cases h : g.edges.length = 0
  · rw [if_pos h] at hb
    have he : g.edges = [] := List.length_eq_zero.mp h
    have hb2 : ([] : List (Nat × Nat × Int)) = b := Except.ok.inj hb
    rw [← hb2, baseTriplesRaw, he]
    rfl
  · rw [if_neg h] at hb
    by_cases he : (baseTriplesRaw g nl wk).isEmpty = true
    · rw [if_pos he] at hb
      exact absurd hb (by simp)
    · rw [if_neg he] at hb
      exact (Except.ok.inj hb).symm

theorem selfloopTriples_ok (g : Graph) (nl : List Nat) (wk : String)
    (c : List (Nat × Nat × Int)) (hc : selfloopTriples g nl wk = .ok c) :
    c = selfloopRaw g nl wk := by
  rw [selfloopTriples] at hc
  by_cases h : (g.edges.filter (fun e => e.1 == e.2.1)).isEmpty = true
  · rw [if_pos h] at hc
    have he : g.edges.filter (fun e => e.1 == e.2.1) = [] :=
      List.isEmpty_iff.mp h
    have hc2 : ([] : List (Nat × Nat × Int)) = c := Except.ok.inj hc
    rw [← hc2, selfloopRaw, he]
    rfl
  · rw [if_neg h] at hc
    by_cases he : (selfloopRaw g nl wk).isEmpty = true
    · rw [if_pos he] at hc
      exact absurd hc (by simp)
    · rw [if_neg he] at hc
      exact (Except.ok.inj hc).symm

/-! ## Nonzero-cell enumeration lemmas -/

theorem filter_flatten_eq (p : α → Bool) :
    ∀ L : List (List α), L.flatten.filter p = (L.map (List.filter p)).flatten := by
  intro L
  induction L with
  | nil => rfl
  | cons l t ih =>
    simp only [List.flatten_cons, List.filter_append, List.map_cons, ih]

theorem map_const_eq_replicate (x : β) :
    ∀ l : List α, l.map (fun _ => x) = List.replicate l.length x := by
  intro l
  induction l with
  | nil => rfl
  | cons a t ih => simp [ih, List.replicate_succ]

theorem expandCell_eq_replicate (A : List (List Int)) (c : Nat × Nat) :
    expandCell A c = List.replicate (aget A c.1 c.2).toNat (c.1, c.2, (1 : Int)) := by
  rw [expandCell, map_const_eq_replicate, List.length_range]

theorem filter_replicate_cases (p : α → Bool) (x : α) (n : Nat) :
    (List.replicate n x).filter p
      = if p x = true then List.replicate n x else [] := by
  induction n with
  | zero => cases hp : p x <;> simp [hp]
  | succ m ih =>
    cases hp : p x
    · simp only [List.replicate_succ, List.filter_cons, hp, Bool.false_eq_true,
        if_false, ih]
    · simp only [List.replicate_succ, List.filter_cons, hp, if_true, ih]

theorem filter_expandCell (A : List (List Int)) (c : Nat × Nat) (i j : Nat) :
    (expandCell A c).filter (fun e => e.1 == i && e.2.1 == j)
      = if c = (i, j) then expandCell A c else [] := by
  obtain ⟨u, v⟩ := c
  rw [expandCell_eq_replicate, filter_replicate_cases]
  by_cases hc : (u, v) = (i, j)
  · have hu : u = i := congrArg Prod.fst hc
    have hv : v = j := congrArg Prod.snd hc
    subst hu
    subst hv
    simp [expandCell_eq_replicate]
  · have hne : ¬(u = i ∧ v = j) := by
      intro hcon
      exact hc (by rw [hcon.1, hcon.2])
    have hcond : (((u, v, (1 : Int)).1 == i) && ((u, v, (1 : Int)).2.1 == j)) = false := by
      apply Bool.eq_false_iff.mpr
      intro hzt
      rw [Bool.and_eq_true] at hzt
      exact hne ⟨by simpa using hzt.1, by simpa using hzt.2⟩
    rw [hcond]
    simp [hc]

theorem flatten_map_ite_single [DecidableEq α] (a : α) (f : α → List β) :
    ∀ l : List α, l.Nodup →
      (l.map (fun c => if c = a then f c else [])).flatten
        = if a ∈ l then f a else [] := by
  intro l
  induction l with
  | nil => simp
  | cons b t ih =>
    intro hnd
    obtain ⟨hb, ht⟩ := List.nodup_cons.mp hnd
    simp only [List.map_cons, List.flatten_cons, ih ht]
    by_cases hba : b = a
    · subst hba
      rw [if_pos rfl, if_neg hb, if_pos (List.mem_cons_self b t), List.append_nil]
    · rw [if_neg hba]
      by_cases hmem : a ∈ t
      · rw [if_pos hmem, if_pos (List.mem_cons_of_mem b hmem), List.nil_append]
      · have hnc : ¬a ∈ b :: t := by
          intro hcon
          rcases List.mem_cons.mp hcon with h1 | h1
          · exact hba h1.symm
          · exact hmem h1
        rw [if_neg hmem, if_neg hnc, List.nil_append]

theorem mem_nonzeroCells (A : List (List Int)) (i j : Nat) :
    (i, j) ∈ nonzeroCells A
      ↔ i < A.length ∧ j < (A.getD i []).length ∧ aget A i j ≠ 0 := by
  simp only [nonzeroCells, List.mem_flatten, List.mem_map, List.mem_range,
    List.mem_filter]
  constructor
  · rintro ⟨l, ⟨k, hk, hl⟩, hmem⟩
    rw [← hl] at hmem
    obtain ⟨m, hm, hpair⟩ := List.mem_map.mp hmem
    have hki : k = i := congrArg Prod.fst hpair
    have hmj : m = j := congrArg Prod.snd hpair
    subst hki
    subst hmj
    obtain ⟨hrange, hval⟩ := List.mem_filter.mp hm
    exact ⟨hk, List.mem_range.mp hrange, by simpa using hval⟩
  · rintro ⟨hi, hj, hval⟩
    refine ⟨((List.range ((A.getD i []).length)).filter
        (fun j => decide (aget A i j ≠ 0))).map (fun j => (i, j)),
      ⟨i, hi, rfl⟩, ?_⟩
    exact List.mem_map.mpr ⟨j,
      List.mem_filter.mpr ⟨List.mem_range.mpr hj, by simpa using hval⟩, rfl⟩

theorem nodup_flatten_keyed (f : Nat → List (Nat × Nat))
    (hkey : ∀ k x, x ∈ f k → x.1 = k) (hnd : ∀ k, (f k).Nodup) :
    ∀ ks : List Nat, ks.Nodup → ((ks.map f).flatten).Nodup := by
  intro ks
  induction ks with
  | nil => simp
  | cons k t ih =>
    intro h
    obtain ⟨hk, ht⟩ := List.nodup_cons.mp h
    simp only [List.map_cons, List.flatten_cons]
    refine (hnd k).append (ih ht) ?_
    intro x hx1 hx2
    have h1 : x.1 = k := hkey k x hx1
    obtain ⟨l, hl, hxl⟩ := List.mem_flatten.mp hx2
    obtain ⟨m, hm, hml⟩ := List.mem_map.mp hl
    rw [← hml] at hxl
    have h2 : x.1 = m := hkey m x hxl
    rw [h1] at h2
    rw [h2] at hk
    exact hk hm

theorem nodup_nonzeroCells (A : List (List Int)) : (nonzeroCells A).Nodup := by
  rw [nonzeroCells]
  refine nodup_flatten_keyed _ ?_ ?_ (List.range A.length) (List.nodup_range _)
  · intro k x hx
    obtain ⟨m, _, hml⟩ := List.mem_map.mp hx
    exact (congrArg Prod.fst hml).symm
  · intro k
    refine List.Nodup.map ?_ ((List.nodup_range _).filter _)
    intro x y hxy
    exact congrArg Prod.snd hxy

theorem filter_parallel_triples (A : List (List Int)) (i j : Nat) :
    (((nonzeroCells A).map (expandCell A)).flatten).filter
        (fun e => e.1 == i && e.2.1 == j)
      = expandCell A (i, j) := by
  rw [filter_flatten_eq, List.map_map]
  have hpt : ((nonzeroCells A).map
        (fun c => (expandCell A c).filter (fun e => e.1 == i && e.2.1 == j)))
      = (nonzeroCells A).map
        (fun c => if c = (i, j) then expandCell A c else []) := by
    apply List.map_congr_left
    intro c _
    exact filter_expandCell A c i j
  have hcomp : (List.filter (fun e => e.1 == i && e.2.1 == j) ∘ expandCell A)
      = fun c => (expandCell A c).filter (fun e => e.1 == i && e.2.1 == j) := rfl
  rw [hcomp, hpt,
    flatten_map_ite_single (i, j) (expandCell A) (nonzeroCells A) (nodup_nonzeroCells A)]
  by_cases hmem : (i, j) ∈ nonzeroCells A
  · rw [if_pos hmem]
  · rw [if_neg hmem]
    by_cases hz : aget A i j = 0
    · simp [expandCell_eq_replicate, hz]
    · by_cases hi : i < A.length
      · by_cases hj : j < (A.getD i []).length
        · exact absurd ((mem_nonzeroCells A i j).mpr ⟨hi, hj, hz⟩) hmem
        · have : (A.getD i []).getD j 0 = 0 :=
            List.getD_eq_default _ _ (Nat.le_of_not_lt hj)
          exact absurd (by rw [aget, this]) hz
      · have h1 : A.getD i [] = [] :=
          List.getD_eq_default _ _ (Nat.le_of_not_lt hi)
        have : aget A i j = 0 := by rw [aget, h1]; rfl
        exact absurd this hz

/-- C3: for every undirected graph whose sparse encode succeeds, the produced
triples are the base triples concatenated with their row/col-swapped copy and
one `(index[u], index[u], -weight)` correction per in-ordering self-loop
edge, and materializing the triples to a dense matrix leaves every diagonal
cell equal to the uncorrected base value — the self-loop weight w, not 2w. -/
theorem sparse_undirected_selfloop (g : Graph) (nl : List Nat) (wk fmt : String)
    (t : List (Nat × Nat × Int)) (hund : g.directed = false) (hnd : nl.Nodup)
    (ht : to_scipy_sparse_matrix g (some nl) wk fmt = .ok t) :
    t = baseTriplesRaw g nl wk ++ swapTriples (baseTriplesRaw g nl wk)
        ++ selfloopRaw g nl wk
    ∧ ∀ i, cooCell t i i = cooCell (baseTriplesRaw g nl wk) i i := by
  have hlen : nl.length = nl.dedup.length := (nodup_iff_dedup_length nl).mp hnd
  rw [to_scipy_sparse_matrix] at ht
  simp only [Option.getD_some] at ht
  by_cases h0 : nl.length = 0
  · rw [if_pos h0] at ht
    exact Except.noConfusion ht
  · rw [if_neg h0, if_neg (not_ne_iff.mpr hlen)] at ht
    cases hs : scipyTriples g nl wk with
    | error e =>
      rw [hs] at ht
      exact Except.noConfusion ht
    | ok s =>
      rw [hs] at ht
      by_cases hf : supportedFormats.contains fmt = true
      · rw [hf] at ht
        have hts : s = t := Except.ok.inj ht
        rw [scipyTriples] at hs
        cases hb : baseTriplesE g nl wk with
        | error e =>
          rw [hb] at hs
          exact Except.noConfusion hs
        | ok b =>
          rw [hb, hund] at hs
          cases hc : selfloopTriples g nl wk with
          | error e =>
            rw [hc] at hs
            exact Except.noConfusion hs
          | ok c =>
            rw [hc] at hs
            have hsv : b ++ swapTriples b ++ c = s := Except.ok.inj hs
            have hbr := baseTriplesE_ok g nl wk b hb
            have hcr := selfloopTriples_ok g nl wk c hc
            have hteq : t = baseTriplesRaw g nl wk
                ++ swapTriples (baseTriplesRaw g nl wk) ++ selfloopRaw g nl wk := by
              rw [← hts, ← hsv, hbr, hcr]
            refine ⟨hteq, ?_⟩
            intro i
            rw [hteq, cooCell_append, cooCell_append, cooCell_swap_diag,
              selfloopRaw_diag_cancel g nl wk i]
            ring
      · have hf2 := Bool.eq_false_iff.mpr hf
        rw [hf2] at ht
        exact Except.noConfusion ht

/-- Witness for C3's theorem: an undirected one-node graph with a single
self-loop of weight 5. -/
theorem sparse_undirected_selfloop_witness :
    ([(0, 0, 5), (0, 0, 5), (0, 0, -5)] : List (Nat × Nat × Int))
        = baseTriplesRaw ⟨[0], [(0, 0, [("weight", 5)])], false, false⟩ [0] "weight"
          ++ swapTriples
              (baseTriplesRaw ⟨[0], [(0, 0, [("weight", 5)])], false, false⟩ [0] "weight")
          ++ selfloopRaw ⟨[0], [(0, 0, [("weight", 5)])], false, false⟩ [0] "weight"
    ∧ ∀ i, cooCell ([(0, 0, 5), (0, 0, 5), (0, 0, -5)] : List (Nat × Nat × Int)) i i
        = cooCell
            (baseTriplesRaw ⟨[0], [(0, 0, [("weight", 5)])], false, false⟩ [0] "weight")
            i i :=
  sparse_undirected_selfloop ⟨[0], [(0, 0, [("weight", 5)])], false, false⟩ [0]
    "weight" "csr" [(0, 0, 5), (0, 0, 5), (0, 0, -5)] rfl (by decide) rfl

/-- C4: decoding [[1,1],[1,2]] into an undirected multigraph with parallel
edges on gives exactly 2 parallel unit-weight self-loops at node 1, and with
parallel edges off a single self-loop of weight 2; in general an integer
matrix decoded into a multigraph with parallel edges on yields, per
upper-retained cell of non-negative value, exactly cell-value-many parallel
edges of unit weight. -/
theorem parallel_edges_expansion (A : List (List Int)) (i j : Nat)
    (directed : Bool) (hsq : isSquare A = true) (hij : directed = true ∨ i ≤ j)
    (hv : 0 ≤ aget A i j) :
    (∃ G, from_numpy_matrix A true directed true = .ok G
      ∧ G.edges.filter (fun e => e.1 == i && e.2.1 == j)
          = List.replicate (aget A i j).toNat (i, j, (1 : Int)))
    ∧ (∃ G, from_numpy_matrix [[1, 1], [1, 2]] true false true = .ok G
      ∧ G.edges.filter (fun e => e.1 == 1 && e.2.1 == 1)
          = [(1, 1, 1), (1, 1, 1)])
    ∧ (∃ G, from_numpy_matrix [[1, 1], [1, 2]] false false true = .ok G
      ∧ G.edges.filter (fun e => e.1 == 1 && e.2.1 == 1) = [(1, 1, 2)]) := by
  refine ⟨?_, ⟨_, rfl, rfl⟩, ⟨_, rfl, rfl⟩⟩
  rw [from_numpy_matrix, hsq]
  simp only [Bool.not_true, Bool.false_eq_true, if_false]
  cases directed with
  | false =>
    have hle : i ≤ j := by
      rcases hij with h1 | h1
      · exact absurd h1 (by simp)
      · exact h1
    refine ⟨_, rfl, ?_⟩
    simp only [Bool.and_self, if_true, Bool.not_false, Bool.and_true]
    rw [List.filter_comm, filter_parallel_triples, expandCell_eq_replicate,
      filter_replicate_cases, if_pos (by simpa using hle)]
  | true =>
    refine ⟨_, rfl, ?_⟩
    simp only [Bool.and_self, if_true, Bool.not_true, Bool.and_false,
      Bool.false_eq_true, if_false]
    rw [filter_parallel_triples, expandCell_eq_replicate]

/-- Witness for C4's theorem at matrix [[1,1],[1,2]] and cell (1,1). -/
theorem parallel_edges_expansion_witness :
    (∃ G, from_numpy_matrix [[1, 1], [1, 2]] true false true = .ok G
      ∧ G.edges.filter (fun e => e.1 == 1 && e.2.1 == 1)
          = List.replicate (aget [[1, 1], [1, 2]] 1 1).toNat (1, 1, (1 : Int)))
    ∧ (∃ G, from_numpy_matrix [[1, 1], [1, 2]] true false true = .ok G
      ∧ G.edges.filter (fun e => e.1 == 1 && e.2.1 == 1)
          = [(1, 1, 1), (1, 1, 1)])
    ∧ (∃ G, from_numpy_matrix [[1, 1], [1, 2]] false false true = .ok G
      ∧ G.edges.filter (fun e => e.1 == 1 && e.2.1 == 1) = [(1, 1, 2)]) :=
  parallel_edges_expansion [[1, 1], [1, 2]] 1 1 false (by decide)
    (Or.inr (Nat.le_refl 1)) (by decide)

/-- C9: a negative cell of an integer matrix decoded into a multigraph with
parallel edges on is enumerated as a nonzero candidate but contributes zero
edges between its node pair, with no error; likewise in the sparse decode, a
negative coordinate entry expands to no edges. -/
theorem negative_cell_zero_edges (A : List (List Int)) (i j : Nat)
    (directed : Bool) (hsq : isSquare A = true) (hi : i < A.length)
    (hj : j < (A.getD i []).length) (hneg : aget A i j < 0) :
    (∃ G, from_numpy_matrix A true directed true = .ok G
      ∧ G.edges.filter (fun e => e.1 == i && e.2.1 == j) = [])
    ∧ (i, j) ∈ nonzeroCells A
    ∧ (∃ G, from_scipy_sparse_matrix (SparseMat.coo (2, 2) [0, 1] [1, 0] [3, -2])
          true true true = .ok G
      ∧ G.edges.filter (fun e => e.1 == 1 && e.2.1 == 0) = []
      ∧ (1, 0, -2) ∈ generate_weighted_edges
          (SparseMat.coo (2, 2) [0, 1] [1, 0] [3, -2])) := by
  refine ⟨?_, (mem_nonzeroCells A i j).mpr ⟨hi, hj, ne_of_lt hneg⟩,
    ⟨_, rfl, rfl, by decide⟩⟩
  have hrep : expandCell A (i, j) = [] := by
    rw [expandCell_eq_replicate]
    have hz : (aget A (i, j).1 (i, j).2).toNat = 0 :=
      Int.toNat_of_nonpos (le_of_lt hneg)
    rw [hz]
    rfl
  rw [from_numpy_matrix, hsq]
  simp only [Bool.not_true, Bool.false_eq_true, if_false]
  cases directed with
  | false =>
    refine ⟨_, rfl, ?_⟩
    simp only [Bool.and_self, if_true, Bool.not_false, Bool.and_true]
    rw [List.filter_comm, filter_parallel_triples, hrep]
    rfl
  | true =>
    refine ⟨_, rfl, ?_⟩
    simp only [Bool.and_self, if_true, Bool.not_true, Bool.and_false,
      Bool.false_eq_true, if_false]
    rw [filter_parallel_triples, hrep]

/-- Witness for C9's theorem at matrix [[0,-3],[0,0]] and cell (0,1). -/
theorem negative_cell_zero_edges_witness :
    (∃ G, from_numpy_matrix [[0, -3], [0, 0]] true true true = .ok G
      ∧ G.edges.filter (fun e => e.1 == 0 && e.2.1 == 1) = [])
    ∧ ((0 : Nat), (1 : Nat)) ∈ nonzeroCells [[0, -3], [0, 0]]
    ∧ (∃ G, from_scipy_sparse_matrix (SparseMat.coo (2, 2) [0, 1] [1, 0] [3, -2])
          true true true = .ok G
      ∧ G.edges.filter (fun e => e.1 == 1 && e.2.1 == 0) = []
      ∧ (1, 0, -2) ∈ generate_weighted_edges
          (SparseMat.coo (2, 2) [0, 1] [1, 0] [3, -2])) :=
  negative_cell_zero_edges [[0, -3], [0, 0]] 0 1 true (by decide) (by decide)
    (by decide) (by decide)

end ConvertMatrix
